import Mathlib

/-!
# Verification of `utils::HashTable` (src/kernel/lib/utils/include/utils/intrusive_hash_table.h)

A shallow embedding of the intrusive, chained hash table from
`src/kernel/lib/utils/include/utils/intrusive_hash_table.h`.

Modelling choices:
* Objects are drawn from an arbitrary type `Obj` with decidable equality
  (object identity stands in for C++ node addresses).
* `KeyType` is `Nat`; the default key traits compare keys with `==` on `Nat`
  (`DefaultKeyedObjectTraits::EqualTo`).
* The table's static configuration (`kNumBuckets`, `KeyTraits::GetKey`,
  `HashTraits::GetHash`) is a structure `HTSpec`.  The `DEBUG_ASSERT` in
  `HashTable::GetHash` (the hash must land in `[0, kNumBuckets)`) and the
  `static_assert (kNumBuckets > 0)` are the fields `hash_range` and
  `buckets_pos`.
* A table state is the pair of the bucket array (`buckets_`) and the
  maintained element count (`count_`), exactly the data members of
  `HashTable`.
* `PtrType` results (which may be null) are `Option Obj`.
* The bucket type (`SinglyLinkedList`, from `utils/intrusive_single_list.h`,
  not part of the sources) is modelled from the spec as a `List Obj` whose
  chain order is front-to-back; see `bucketEraseIf` below.
-/

namespace IntrusiveHashTable

universe u

/-- Static configuration of a `HashTable` instantiation: `kNumBuckets`,
`KeyTraits::GetKey` and `HashTraits::GetHash`, together with the two
compile-time/debug contracts the source states: `kNumBuckets > 0`
(`static_assert` at line 140) and the `DEBUG_ASSERT` in `HashTable::GetHash`
that the hash of every key lies in `[0, kNumBuckets)`. -/
structure HTSpec (Obj : Type u) where
  numBuckets : Nat
  getKey : Obj → Nat
  getHash : Nat → Nat
  buckets_pos : 0 < numBuckets
  hash_range : ∀ k, getHash k < numBuckets

/-- The data members of `HashTable`: the fixed array `BucketType
buckets_[kNumBuckets]` (a list of bucket chains, front of the chain first)
and `size_t count_`. -/
structure HTState (Obj : Type u) where
  buckets_ : List (List Obj)
  count_ : Nat

variable {Obj : Type u}

/-- Read bucket `i` of the array (`buckets_[i]`); out-of-range reads (which
do not occur for well-formed states) give the empty chain. -/
def bucketAt (t : HTState Obj) (i : Nat) : List Obj :=
  t.buckets_.getD i []

/-- Modelled from the spec: the bucket's `erase_if` (from
`utils/intrusive_single_list.h`, which is not among the sources; the spec
says a bucket supports "predicate-based find and erase" and that erase
"removes and returns the first object for which `predicate(object)`
holds").  Returns the removed object (or `none`) together with the
remaining chain. -/
def bucketEraseIf (p : Obj → Bool) : List Obj → Option Obj × List Obj
  | [] => (none, [])
  | x :: xs =>
    if p x then (some x, xs)
    else
      let r := bucketEraseIf p xs
      (r.1, x :: r.2)

/-- The default hash traits (`DefaultHashTraits::GetHash`): reduce a raw
hash by `% kNumBuckets`. -/
def defaultGetHash (rawHash : Nat → Nat) (numBuckets : Nat) (key : Nat) : Nat :=
  rawHash key % numBuckets

/-- `HashTable::GetHash` (the `DEBUG_ASSERT` that the result is in range is
the `hash_range` field of `HTSpec`). -/
def GetHash (C : HTSpec Obj) (key : Nat) : Nat :=
  C.getHash key

/-- `HashTable::insert(PtrType&&)`: push the object to the front of the
bucket selected by the hash of its key, and increment `count_`.  The
`DEBUG_ASSERT(ptr != nullptr)` is modelled by `insert` taking an `Obj`
(never null). -/
def insert (C : HTSpec Obj) (t : HTState Obj) (ptr : Obj) : HTState Obj :=
  { buckets_ := t.buckets_.set (GetHash C (C.getKey ptr))
      (ptr :: bucketAt t (GetHash C (C.getKey ptr))),
    count_ := t.count_ + 1 }

/-- `HashTable::find(const KeyType&)`: scan only the bucket at
`GetHash(key)` with the predicate `KeyTraits::EqualTo(key, GetKey(other))`
(the bucket's `find_if`, modelled from the spec as first-match search in
chain order); `none` is the null `PtrType&`. -/
def find (C : HTSpec Obj) (t : HTState Obj) (key : Nat) : Option Obj :=
  (bucketAt t (GetHash C key)).find? (fun other => key == C.getKey other)

/-- `HashTable::erase(const KeyType&)`: remove the first object with a
matching key from the bucket at `GetHash(key)`
(`internal::KeyEraseUtils::erase`, modelled from the spec: "locates and
unlinks the first matching object in the target bucket"), decrementing
`count_` only if something was removed. -/
def erase (C : HTSpec Obj) (t : HTState Obj) (key : Nat) : Option Obj × HTState Obj :=
  let r := bucketEraseIf (fun other => key == C.getKey other) (bucketAt t (GetHash C key))
  (r.1, { buckets_ := t.buckets_.set (GetHash C key) r.2,
          count_ := if r.1.isSome then t.count_ - 1 else t.count_ })

/-- `HashTable::direct_erase(BucketType&, ValueType&)`: remove the given
object (located by identity, `internal::DirectEraseUtils::erase`, modelled
from the spec: "located by direct identity") from the bucket at index
`idx`, decrementing `count_` on success. -/
def direct_erase [DecidableEq Obj] (t : HTState Obj) (idx : Nat) (obj : Obj) :
    Option Obj × HTState Obj :=
  let r := bucketEraseIf (fun x => x == obj) (bucketAt t idx)
  (r.1, { buckets_ := t.buckets_.set idx r.2,
          count_ := if r.1.isSome then t.count_ - 1 else t.count_ })

/-- `HashTable::erase(ValueType& obj)`: `direct_erase(GetBucket(obj), obj)`,
the bucket being recomputed from the object's current key. -/
def eraseObj [DecidableEq Obj] (C : HTSpec Obj) (t : HTState Obj) (obj : Obj) :
    Option Obj × HTState Obj :=
  direct_erase t (GetHash C (C.getKey obj)) obj

/-- `HashTable::clear()`: clear every bucket and reset `count_` to zero. -/
def clear (t : HTState Obj) : HTState Obj :=
  { buckets_ := t.buckets_.map (fun _ => []), count_ := 0 }

/-- `HashTable::size()`: the maintained count. -/
def size (t : HTState Obj) : Nat :=
  t.count_

/-- `HashTable::size_slow()`: the source simply returns `size()`. -/
def size_slow (t : HTState Obj) : Nat :=
  size t

/-- `HashTable::is_empty()`: `count_ == 0`. -/
def is_empty (t : HTState Obj) : Bool :=
  t.count_ == 0

/-- The bucket-scanning loop of `HashTable::erase_if`, starting at bucket
index `i`: skip empty buckets; in the first bucket whose `erase_if` finds a
match, remove that object, decrement `count_` and stop. -/
def erase_if_loop (C : HTSpec Obj) (t : HTState Obj) (fn : Obj → Bool) (i : Nat) :
    Option Obj × HTState Obj :=
  if _h : i < C.numBuckets then
    let bucket := bucketAt t i
    if bucket.isEmpty then erase_if_loop C t fn (i + 1)
    else
      let r := bucketEraseIf fn bucket
      match r.1 with
      | some o => (some o, { buckets_ := t.buckets_.set i r.2, count_ := t.count_ - 1 })
      | none => erase_if_loop C t fn (i + 1)
  else (none, t)
termination_by C.numBuckets - i

/-- `HashTable::erase_if(UnaryFn)`: return `none` immediately when the table
is empty, otherwise scan buckets in ascending index order. -/
def erase_if (C : HTSpec Obj) (t : HTState Obj) (fn : Obj → Bool) :
    Option Obj × HTState Obj :=
  if is_empty t then (none, t)
  else erase_if_loop C t fn 0

/-!
## The cross-bucket iterator (`iterator_impl`)

The iterator carries a bucket index `bucket_ndx_` and an in-bucket iterator
`iter_`.  The bucket's own iterator (from the singly-linked list, not among
the sources) is modelled from the spec as a position `pos_` in the chain:
position `j < length` denotes the `j`-th chain element, and any position
`≥ length` is the invalid/null state (`IsValid() == false`; in the list
implementation every invalid in-bucket iterator is the null pointer, which
is also the bucket's `end()`).  Stepping such an iterator backward from the
front of the chain makes it invalid; stepping backward from the chain's
`end()` lands on the last element.
-/

/-- The state of `iterator_impl` bound to a table: `bucket_ndx_` plus the
in-bucket iterator, modelled as the chain position `pos_`. -/
structure HTIter where
  bucket_ndx_ : Nat
  pos_ : Nat
deriving DecidableEq, Repr

/-- `iter_.IsValid()`: the in-bucket position denotes a stored object. -/
def iterValid (t : HTState Obj) (it : HTIter) : Bool :=
  it.pos_ < (bucketAt t it.bucket_ndx_).length

/-- Dereference (`operator*`): the object at the iterator's position, when
valid. -/
def derefIter (t : HTState Obj) (it : HTIter) : Option Obj :=
  (bucketAt t it.bucket_ndx_).get? it.pos_

/-- `iterator_impl::operator==`: the source compares only the in-bucket
iterators (`iter_ == other.iter_`), i.e. the underlying node pointers: two
valid iterators are equal iff they denote the same node, and every invalid
in-bucket iterator is the null pointer, so any two invalid iterators
compare equal. -/
def iterEq (t : HTState Obj) (a b : HTIter) : Bool :=
  if iterValid t a then
    iterValid t b && a.bucket_ndx_ == b.bucket_ndx_ && a.pos_ == b.pos_
  else
    !iterValid t b

/-- The `while (bucket_ndx_ < (kNumBuckets - 1))` search loop inside
`iterator_impl::advance_if_invalid_iter`: move the bucket index upward; on
the first non-empty bucket rebind the in-bucket iterator to its begin; if
the last bucket is reached and it is empty, rebind to its end. -/
def advance_loop (C : HTSpec Obj) (t : HTState Obj) (it : HTIter) : HTIter :=
  if _h : it.bucket_ndx_ < C.numBuckets - 1 then
    let ndx := it.bucket_ndx_ + 1
    let bucket := bucketAt t ndx
    if !bucket.isEmpty then ⟨ndx, 0⟩
    else if ndx = C.numBuckets - 1 then ⟨ndx, bucket.length⟩
    else advance_loop C t ⟨ndx, it.pos_⟩
  else it
termination_by C.numBuckets - 1 - it.bucket_ndx_

/-- `iterator_impl::advance_if_invalid_iter()`: if the in-bucket iterator
has run off the end of its bucket, search the remaining buckets. -/
def advance_if_invalid_iter (C : HTSpec Obj) (t : HTState Obj) (it : HTIter) : HTIter :=
  if iterValid t it then it else advance_loop C t it

/-- `iterator_impl(hash_table, BeginTag)`: bucket 0 at its begin, then
`advance_if_invalid_iter()`. -/
def beginIter (C : HTSpec Obj) (t : HTState Obj) : HTIter :=
  advance_if_invalid_iter C t ⟨0, 0⟩

/-- `iterator_impl(hash_table, EndTag)`: the last bucket at its end. -/
def endIter (C : HTSpec Obj) (t : HTState Obj) : HTIter :=
  ⟨C.numBuckets - 1, (bucketAt t (C.numBuckets - 1)).length⟩

/-- `iterator_impl::operator++` (prefix): a no-op on an invalid iterator;
otherwise bump the in-bucket iterator and repair it across buckets. -/
def incr (C : HTSpec Obj) (t : HTState Obj) (it : HTIter) : HTIter :=
  if iterValid t it then
    advance_if_invalid_iter C t ⟨it.bucket_ndx_, it.pos_ + 1⟩
  else it

/-- Backward step of the in-bucket iterator (modelled from the spec: "step
the in-bucket iterator backward; if it becomes invalid ..."): from the
front of the chain it becomes invalid (`len` is the canonical invalid
position); from any position past the end it stays invalid; otherwise it
moves one towards the front (in particular `--end()` is the last
element). -/
def bucketDecr (len pos : Nat) : Nat :=
  if pos = 0 ∨ len < pos then len else pos - 1

/-- The `while (bucket_ndx_)` loop of `iterator_impl::operator--`: scan
bucket indices strictly below `ndx` downward for a non-empty bucket and
bind to its last element (`--BucketEnd`); if none exists, become the end
sentinel (last bucket, at its end). -/
def decr_scan (C : HTSpec Obj) (t : HTState Obj) : Nat → HTIter
  | 0 => endIter C t
  | Nat.succ m =>
    let bucket := bucketAt t m
    if !bucket.isEmpty then ⟨m, bucket.length - 1⟩
    else decr_scan C t m

/-- `iterator_impl::operator--` (prefix), for an iterator bound to a table:
back up the in-bucket iterator; if it stays valid, done; otherwise scan
earlier buckets, wrapping to the end sentinel when none is non-empty. -/
def decr (C : HTSpec Obj) (t : HTState Obj) (it : HTIter) : HTIter :=
  let len := (bucketAt t it.bucket_ndx_).length
  let p := bucketDecr len it.pos_
  if p < len then ⟨it.bucket_ndx_, p⟩
  else decr_scan C t it.bucket_ndx_

/-- Forward traversal with fuel: collect the objects visited by repeated
dereference-then-`operator++`, stopping at an invalid iterator, and return
the final iterator as well. -/
def iterPath (C : HTSpec Obj) (t : HTState Obj) : Nat → HTIter → List Obj × HTIter
  | 0, it => ([], it)
  | Nat.succ n, it =>
    match derefIter t it with
    | none => ([], it)
    | some o =>
      let r := iterPath C t n (incr C t it)
      (o :: r.1, r.2)

/-- `HashTable::erase(const iterator&)`: null if the iterator is invalid,
otherwise `direct_erase` on the bucket the iterator's `bucket_ndx_` names,
at the object the iterator denotes. -/
def eraseIter [DecidableEq Obj] (t : HTState Obj) (it : HTIter) :
    Option Obj × HTState Obj :=
  match derefIter t it with
  | none => (none, t)
  | some obj => direct_erase t it.bucket_ndx_ obj

/-!
## Well-formedness

`WF` packages the two structural facts every table reachable through the
public interface enjoys: the bucket array has exactly `kNumBuckets` entries
(it is a fixed-size C++ array member), and `count_` equals the total number
of stored objects.  `HashInv` is the placement invariant: every stored
object sits in the bucket selected by the hash of its key.
-/

/-- The bucket array has exactly `kNumBuckets` buckets, and `count_` is the
sum of the per-bucket chain lengths. -/
def WF (C : HTSpec Obj) (t : HTState Obj) : Prop :=
  t.buckets_.length = C.numBuckets ∧ t.count_ = (t.buckets_.map List.length).sum

/-- Every stored object lies in the bucket indexed by the hash of its
key. -/
def HashInv (C : HTSpec Obj) (t : HTState Obj) : Prop :=
  ∀ i, i < t.buckets_.length → ∀ o ∈ bucketAt t i, GetHash C (C.getKey o) = i

instance (C : HTSpec Obj) (t : HTState Obj) : Decidable (WF C t) :=
  inferInstanceAs (Decidable (t.buckets_.length = C.numBuckets ∧
    t.count_ = (t.buckets_.map List.length).sum))

instance (C : HTSpec Obj) (t : HTState Obj) : Decidable (HashInv C t) :=
  inferInstanceAs (Decidable (∀ i, i < t.buckets_.length →
    ∀ o ∈ bucketAt t i, GetHash C (C.getKey o) = i))

/-- All stored objects, in scan order: ascending bucket index, chain
order within each bucket. -/
def allElems (t : HTState Obj) : List Obj :=
  t.buckets_.flatten

/-- The stored objects from bucket `i` onward, in scan order. -/
def tailFlat (t : HTState Obj) (i : Nat) : List Obj :=
  (t.buckets_.drop i).flatten

/-- The stored objects of the buckets before bucket `i`, in scan order. -/
def takeFlat (t : HTState Obj) (i : Nat) : List Obj :=
  (t.buckets_.take i).flatten

/-- The objects an iterator still has ahead of it (itself included), in
scan order: the rest of its bucket's chain from its position on, then all
later buckets. -/
def restOf (t : HTState Obj) (it : HTIter) : List Obj :=
  (bucketAt t it.bucket_ndx_).drop it.pos_ ++ tailFlat t (it.bucket_ndx_ + 1)

/-- The common shape of the three erase paths of the source
(`erase(const KeyType&)` via `KeyEraseUtils`, and `direct_erase` via
`DirectEraseUtils`): remove the first element of bucket `idx` satisfying
`p`, decrementing `count_` exactly when something was removed.  `erase` and
`direct_erase` are definitionally instances of this shape (proved by `rfl`
below). -/
def eraseShape (t : HTState Obj) (idx : Nat) (p : Obj → Bool) :
    Option Obj × HTState Obj :=
  let r := bucketEraseIf p (bucketAt t idx)
  (r.1, { buckets_ := t.buckets_.set idx r.2,
          count_ := if r.1.isSome then t.count_ - 1 else t.count_ })

/-- The empty table with `n` buckets (the `constexpr HashTable()`
constructor: all buckets empty, `count_ = 0`). -/
def emptyTable (n : Nat) : HTState Obj :=
  { buckets_ := List.replicate n [], count_ := 0 }

/-!
## Concrete fixtures

A toy instantiation used by the spec's concrete scenario and as a witness
input: objects are bare `Nat` keys (`GetKey = id`), four buckets,
`GetHash(k) = k % 4` (the default hash traits with the identity raw hash).
-/

/-- The toy configuration: `kNumBuckets = 4`, objects are their own keys,
`GetHash(k) = k % 4`. -/
def specMod4 : HTSpec Nat where
  numBuckets := 4
  getKey := id
  getHash := fun k => defaultGetHash id 4 k
  buckets_pos := by decide
  hash_range := fun k => Nat.mod_lt _ (by decide)

/-- The table of the spec's concrete scenario: keys 1, 5, 9, 2 inserted in
that order into a fresh 4-bucket table. -/
def tScenario : HTState Nat :=
  insert specMod4 (insert specMod4 (insert specMod4 (insert specMod4
    (emptyTable 4) 1) 5) 9) 2

/-! ## List helper lemmas -/

theorem list_set_of_length_le {α : Type u} :
    ∀ (l : List α) (i : Nat) (b : α), l.length ≤ i → l.set i b = l
  | [], _, _, _ => rfl
  | _ :: _, 0, _, h => absurd h (by simp)
  | x :: xs, i + 1, b, h => by
    simpa using list_set_of_length_le xs i b (by simpa using h)

theorem list_set_getD_self {α : Type u} :
    ∀ (l : List α) (i : Nat) (d : α), l.set i (l.getD i d) = l
  | [], _, _ => rfl
  | _ :: _, 0, _ => rfl
  | x :: xs, i + 1, d => by simpa using list_set_getD_self xs i d

theorem list_getD_set_self {α : Type u} (l : List α) (i : Nat) (b d : α)
    (h : i < l.length) : (l.set i b).getD i d = b := by
  rw [List.getD_eq_getElem?_getD, List.getElem?_set_self h]; rfl

theorem list_getD_set_ne {α : Type u} (l : List α) {i j : Nat} (b d : α)
    (h : i ≠ j) : (l.set i b).getD j d = l.getD j d := by
  rw [List.getD_eq_getElem?_getD, List.getElem?_set_ne h, ← List.getD_eq_getElem?_getD]

theorem list_getD_eq_getElem {α : Type u} (l : List α) (i : Nat) (d : α)
    (h : i < l.length) : l.getD i d = l[i] := by
  rw [List.getD_eq_getElem?_getD, List.getElem?_eq_getElem h]; rfl

theorem list_getD_of_length_le {α : Type u} (l : List α) (i : Nat) (d : α)
    (h : l.length ≤ i) : l.getD i d = d := by
  rw [List.getD_eq_getElem?_getD, List.getElem?_eq_none h]; rfl

theorem list_sum_map_length_set {α : Type u} :
    ∀ (l : List (List α)) (i : Nat) (b : List α), i < l.length →
      ((l.set i b).map List.length).sum + (l.getD i []).length
        = (l.map List.length).sum + b.length
  | [], i, b, h => absurd h (by simp)
  | x :: xs, 0, b, _ => by simp [Nat.add_comm, Nat.add_left_comm, Nat.add_assoc]
  | x :: xs, i + 1, b, h => by
    have ih := list_sum_map_length_set xs i b (by simpa using h)
    simp only [List.set_cons_succ, List.map_cons, List.sum_cons, List.getD_cons_succ]
    omega

theorem list_flatten_set {α : Type u} (l : List (List α)) (i : Nat) (b : List α)
    (h : i < l.length) :
    (l.set i b).flatten = (l.take i).flatten ++ b ++ (l.drop (i + 1)).flatten := by
  rw [List.set_eq_take_cons_drop b h, List.flatten_append, List.flatten_cons]
  simp [List.append_assoc]

theorem list_flatten_decomp {α : Type u} (l : List (List α)) (i : Nat)
    (h : i < l.length) :
    l.flatten = (l.take i).flatten ++ l.getD i [] ++ (l.drop (i + 1)).flatten := by
  conv_lhs => rw [← list_set_getD_self l i []]
  exact list_flatten_set l i _ h

/-! ## `bucketEraseIf` lemmas -/

theorem bucketEraseIf_none_iff (p : Obj → Bool) :
    ∀ (l : List Obj), (bucketEraseIf p l).1 = none ↔ ∀ x ∈ l, p x = false
  | [] => by simp [bucketEraseIf]
  | x :: xs => by
    cases hx : p x
    · simp only [bucketEraseIf, hx, Bool.false_eq_true, if_false, List.mem_cons]
      constructor
      · intro h y hy
        rcases hy with hy | hy
        · simpa [hy] using hx
        · exact (bucketEraseIf_none_iff p xs).mp h y hy
      · intro h
        exact (bucketEraseIf_none_iff p xs).mpr (fun y hy => h y (Or.inr hy))
    · simp [bucketEraseIf, hx]

theorem bucketEraseIf_none_snd (p : Obj → Bool) :
    ∀ (l : List Obj), (bucketEraseIf p l).1 = none → (bucketEraseIf p l).2 = l
  | [], _ => rfl
  | x :: xs, h => by
    cases hx : p x
    · simp only [bucketEraseIf, hx, Bool.false_eq_true, if_false] at h ⊢
      rw [bucketEraseIf_none_snd p xs h]
    · simp [bucketEraseIf, hx] at h

theorem bucketEraseIf_fst_eq_find? (p : Obj → Bool) :
    ∀ (l : List Obj), (bucketEraseIf p l).1 = l.find? p
  | [] => rfl
  | x :: xs => by
    cases hx : p x
    · simp [bucketEraseIf, List.find?_cons, hx, bucketEraseIf_fst_eq_find? p xs]
    · simp [bucketEraseIf, List.find?_cons, hx]

theorem bucketEraseIf_some_decomp (p : Obj → Bool) (o : Obj) :
    ∀ (l : List Obj), (bucketEraseIf p l).1 = some o →
      ∃ l₁ l₂, l = l₁ ++ o :: l₂ ∧ (∀ x ∈ l₁, p x = false) ∧ p o = true ∧
        (bucketEraseIf p l).2 = l₁ ++ l₂
  | [], h => by simp [bucketEraseIf] at h
  | x :: xs, h => by
    cases hx : p x
    · simp only [bucketEraseIf, hx, Bool.false_eq_true, if_false] at h ⊢
      obtain ⟨l₁, l₂, hdec, hnone, ho, hsnd⟩ := bucketEraseIf_some_decomp p o xs h
      refine ⟨x :: l₁, l₂, by simp [hdec], ?_, ho, by simp [hsnd]⟩
      intro y hy
      rcases List.mem_cons.mp hy with hy | hy
      · simpa [hy] using hx
      · exact hnone y hy
    · simp only [bucketEraseIf, hx, if_true] at h ⊢
      have hxo : x = o := by simpa using h
      subst hxo
      exact ⟨[], xs, by simp, by simp, hx, by simp⟩

theorem bucketEraseIf_some_length {p : Obj → Bool} {o : Obj} {l : List Obj}
    (h : (bucketEraseIf p l).1 = some o) :
    (bucketEraseIf p l).2.length + 1 = l.length := by
  obtain ⟨l₁, l₂, hdec, -, -, hsnd⟩ := bucketEraseIf_some_decomp p o l h
  subst hdec
  simp [hsnd]; omega

theorem bucketEraseIf_mem_snd {p : Obj → Bool} :
    ∀ {l : List Obj} {x : Obj}, x ∈ (bucketEraseIf p l).2 → x ∈ l
  | [], x, h => by simp [bucketEraseIf] at h
  | y :: ys, x, h => by
    cases hy : p y
    · simp only [bucketEraseIf, hy, Bool.false_eq_true, if_false, List.mem_cons] at h
      rcases h with h | h
      · simp [h]
      · exact List.mem_cons_of_mem _ (bucketEraseIf_mem_snd h)
    · simp only [bucketEraseIf, hy, if_true] at h
      exact List.mem_cons_of_mem _ h

theorem bucketEraseIf_append (p : Obj → Bool) :
    ∀ (l₁ l₂ : List Obj),
      bucketEraseIf p (l₁ ++ l₂) =
        match (bucketEraseIf p l₁).1 with
        | some o => (some o, (bucketEraseIf p l₁).2 ++ l₂)
        | none => ((bucketEraseIf p l₂).1, l₁ ++ (bucketEraseIf p l₂).2)
  | [], l₂ => by simp [bucketEraseIf]
  | x :: xs, l₂ => by
    have ih := bucketEraseIf_append p xs l₂
    cases hx : p x
    · simp only [List.cons_append, bucketEraseIf, hx, Bool.false_eq_true, if_false]
      rcases hfst : (bucketEraseIf p xs).1 with _ | o <;> simp_all
    · simp [bucketEraseIf, hx]

theorem bucketEraseIf_some_countP {p : Obj → Bool} {o : Obj} {l : List Obj}
    (h : (bucketEraseIf p l).1 = some o) :
    (bucketEraseIf p l).2.countP p + 1 = l.countP p := by
  obtain ⟨l₁, l₂, hdec, -, ho, hsnd⟩ := bucketEraseIf_some_decomp p o l h
  subst hdec
  simp [hsnd, List.countP_append, List.countP_cons, ho]; omega

/-! ## Basic facts about the operations -/

theorem erase_eq_eraseShape (C : HTSpec Obj) (t : HTState Obj) (key : Nat) :
    erase C t key = eraseShape t (GetHash C key) (fun other => key == C.getKey other) := rfl

theorem direct_erase_eq_eraseShape [DecidableEq Obj] (t : HTState Obj) (idx : Nat) (obj : Obj) :
    direct_erase t idx obj = eraseShape t idx (fun x => x == obj) := rfl

theorem bucketAt_oob (t : HTState Obj) {i : Nat} (h : t.buckets_.length ≤ i) :
    bucketAt t i = [] :=
  list_getD_of_length_le _ _ _ h

/-- If the bucket erase found something in bucket `idx`, then `idx` is a
real index of the bucket array. -/
theorem eraseShape_some_lt {t : HTState Obj} {idx : Nat} {p : Obj → Bool} {o : Obj}
    (hfst : (bucketEraseIf p (bucketAt t idx)).1 = some o) :
    idx < t.buckets_.length := by
  by_contra h
  push_neg at h
  rw [bucketAt_oob t h] at hfst
  simp [bucketEraseIf] at hfst

theorem eraseShape_fst (t : HTState Obj) (idx : Nat) (p : Obj → Bool) :
    (eraseShape t idx p).1 = (bucketAt t idx).find? p := by
  simp [eraseShape, bucketEraseIf_fst_eq_find?]

/-- An unsuccessful erase leaves the state unchanged. -/
theorem eraseShape_none (t : HTState Obj) (idx : Nat) (p : Obj → Bool)
    (hfst : (bucketEraseIf p (bucketAt t idx)).1 = none) :
    (eraseShape t idx p).2 = t := by
  obtain ⟨bs, c⟩ := t
  simp only [eraseShape, hfst, Option.isSome_none, Bool.false_eq_true, if_false]
  congr 1
  have hsnd := bucketEraseIf_none_snd p (bucketAt ⟨bs, c⟩ idx) hfst
  rw [hsnd]
  exact list_set_getD_self bs idx []

/-- The erase shape preserves well-formedness (in particular the
count/length invariant). -/
theorem eraseShape_WF (C : HTSpec Obj) (t : HTState Obj) (idx : Nat) (p : Obj → Bool)
    (hW : WF C t) : WF C (eraseShape t idx p).2 := by
  obtain ⟨hlen, hcount⟩ := hW
  rcases hfst : (bucketEraseIf p (bucketAt t idx)).1 with _ | o
  · rw [eraseShape_none t idx p hfst]
    exact ⟨hlen, hcount⟩
  · have hidx : idx < t.buckets_.length := eraseShape_some_lt hfst
    have hlen2 := bucketEraseIf_some_length hfst
    have hsum := list_sum_map_length_set t.buckets_ idx (bucketEraseIf p (bucketAt t idx)).2 hidx
    constructor
    · simpa [eraseShape, List.length_set] using hlen
    · simp only [eraseShape, hfst, Option.isSome_some, if_true]
      simp only [bucketAt] at hlen2 hsum ⊢
      omega

/-- A successful erase decrements `size` by exactly one (and the table was
non-empty). -/
theorem eraseShape_some_size (C : HTSpec Obj) (t : HTState Obj) (idx : Nat)
    (p : Obj → Bool) (o : Obj) (hW : WF C t)
    (hfst : (bucketEraseIf p (bucketAt t idx)).1 = some o) :
    size (eraseShape t idx p).2 = size t - 1 ∧ 1 ≤ size t := by
  obtain ⟨hlen, hcount⟩ := hW
  have hidx : idx < t.buckets_.length := eraseShape_some_lt hfst
  have hlen2 := bucketEraseIf_some_length hfst
  have hsum := list_sum_map_length_set t.buckets_ idx (bucketEraseIf p (bucketAt t idx)).2 hidx
  constructor
  · simp [eraseShape, hfst, size]
  · simp only [size, hcount]
    simp only [bucketAt] at hlen2 hsum
    omega

/-- The erase shape preserves the hash-placement invariant: no surviving
object moves to a different bucket. -/
theorem eraseShape_HashInv (C : HTSpec Obj) (t : HTState Obj) (idx : Nat)
    (p : Obj → Bool) (hInv : HashInv C t) : HashInv C (eraseShape t idx p).2 := by
  intro i hi o ho
  simp only [eraseShape, List.length_set] at hi
  by_cases hij : idx = i
  · subst hij
    have hb : bucketAt (eraseShape t idx p).2 idx = (bucketEraseIf p (bucketAt t idx)).2 := by
      simp only [eraseShape, bucketAt]
      exact list_getD_set_self _ _ _ _ hi
    rw [hb] at ho
    exact hInv idx hi o (bucketEraseIf_mem_snd ho)
  · have hb : bucketAt (eraseShape t idx p).2 i = bucketAt t i := by
      simp only [eraseShape, bucketAt]
      exact list_getD_set_ne _ _ _ hij
    rw [hb] at ho
    exact hInv i hi o ho

/-- `insert` targets the bucket `GetHash(GetKey(obj))`: that bucket gains
the object at its front. -/
theorem insert_bucket_self (C : HTSpec Obj) (t : HTState Obj) (o : Obj)
    (hlen : t.buckets_.length = C.numBuckets) :
    bucketAt (insert C t o) (GetHash C (C.getKey o))
      = o :: bucketAt t (GetHash C (C.getKey o)) := by
  simp only [insert, bucketAt]
  exact list_getD_set_self _ _ _ _ (by rw [hlen]; exact C.hash_range _)

/-- `insert` leaves every other bucket untouched. -/
theorem insert_bucket_other (C : HTSpec Obj) (t : HTState Obj) (o : Obj) {j : Nat}
    (hj : j ≠ GetHash C (C.getKey o)) :
    bucketAt (insert C t o) j = bucketAt t j := by
  simp only [insert, bucketAt]
  exact list_getD_set_ne _ _ _ (fun h => hj h.symm)

theorem insert_WF (C : HTSpec Obj) (t : HTState Obj) (o : Obj) (hW : WF C t) :
    WF C (insert C t o) := by
  obtain ⟨hlen, hcount⟩ := hW
  have hidx : GetHash C (C.getKey o) < t.buckets_.length := by
    rw [hlen]; exact C.hash_range _
  have hsum := list_sum_map_length_set t.buckets_ (GetHash C (C.getKey o))
    (o :: bucketAt t (GetHash C (C.getKey o))) hidx
  constructor
  · simpa [insert, List.length_set] using hlen
  · simp only [insert]
    simp only [bucketAt, List.length_cons] at hsum ⊢
    omega

theorem insert_size (C : HTSpec Obj) (t : HTState Obj) (o : Obj) :
    size (insert C t o) = size t + 1 := rfl

theorem insert_HashInv (C : HTSpec Obj) (t : HTState Obj) (o : Obj)
    (hlen : t.buckets_.length = C.numBuckets) (hInv : HashInv C t) :
    HashInv C (insert C t o) := by
  intro i hi x hx
  simp only [insert, List.length_set] at hi
  by_cases hij : i = GetHash C (C.getKey o)
  · subst hij
    rw [insert_bucket_self C t o hlen] at hx
    rcases List.mem_cons.mp hx with hx | hx
    · subst hx; rfl
    · exact hInv _ hi x hx
  · rw [insert_bucket_other C t o (fun h => hij h)] at hx
    exact hInv i hi x hx

theorem clear_bucket (t : HTState Obj) (i : Nat) : bucketAt (clear t) i = [] := by
  rcases Nat.lt_or_ge i t.buckets_.length with h | h
  · simp only [clear, bucketAt]
    rw [list_getD_eq_getElem _ _ _ (by simpa using h)]
    simp
  · exact bucketAt_oob _ (by simpa [clear] using h)

theorem clear_WF (C : HTSpec Obj) (t : HTState Obj)
    (hlen : t.buckets_.length = C.numBuckets) : WF C (clear t) := by
  constructor
  · simpa [clear] using hlen
  · simp only [clear, List.map_map]
    symm
    exact List.sum_eq_zero (by simp)

theorem clear_HashInv (C : HTSpec Obj) (t : HTState Obj) : HashInv C (clear t) := by
  intro i hi o ho
  rw [clear_bucket] at ho
  simp at ho

theorem clear_size (t : HTState Obj) : size (clear t) = 0 := rfl

/-! ## Scan-order decompositions -/

theorem tailFlat_oob (t : HTState Obj) {i : Nat} (h : t.buckets_.length ≤ i) :
    tailFlat t i = [] := by
  simp [tailFlat, List.drop_eq_nil_of_le h]

theorem tailFlat_succ (t : HTState Obj) {i : Nat} (h : i < t.buckets_.length) :
    tailFlat t i = bucketAt t i ++ tailFlat t (i + 1) := by
  simp only [tailFlat]
  rw [List.drop_eq_getElem_cons h, List.flatten_cons]
  congr 1
  exact (list_getD_eq_getElem _ _ _ h).symm

theorem takeFlat_succ (t : HTState Obj) {i : Nat} (h : i < t.buckets_.length) :
    takeFlat t (i + 1) = takeFlat t i ++ bucketAt t i := by
  simp only [takeFlat]
  rw [List.take_succ, List.flatten_append, List.getElem?_eq_getElem h]
  simp only [Option.toList_some, List.flatten_cons, List.flatten_nil, List.append_nil]
  congr 1
  exact (list_getD_eq_getElem _ _ _ h).symm

theorem takeFlat_oob (t : HTState Obj) {i : Nat} (h : t.buckets_.length ≤ i) :
    takeFlat t i = allElems t := by
  simp [takeFlat, allElems, List.take_of_length_le h]

theorem takeFlat_append_tailFlat (t : HTState Obj) (i : Nat) :
    takeFlat t i ++ tailFlat t i = allElems t := by
  simp only [takeFlat, tailFlat, allElems, ← List.flatten_append, List.take_append_drop]

/-- An empty well-formed table has no stored objects at all. -/
theorem allElems_of_count_zero (C : HTSpec Obj) (t : HTState Obj) (hW : WF C t)
    (h : t.count_ = 0) : allElems t = [] := by
  obtain ⟨-, hcount⟩ := hW
  have : (allElems t).length = 0 := by
    simp [allElems, List.length_flatten, ← hcount, h]
  exact List.length_eq_zero.mp this

/-! ## The `erase_if` scan -/

/-- The bucket-scanning loop of `erase_if`, related to a single
first-match erase over the scan-order concatenation of the remaining
buckets. -/
theorem erase_if_loop_flat (C : HTSpec Obj) (t : HTState Obj) (fn : Obj → Bool)
    (hlen : t.buckets_.length = C.numBuckets) (i : Nat) :
    (erase_if_loop C t fn i).1 = (bucketEraseIf fn (tailFlat t i)).1 ∧
    allElems (erase_if_loop C t fn i).2
      = takeFlat t i ++ (bucketEraseIf fn (tailFlat t i)).2 := by
  by_cases h : i < C.numBuckets
  · have hi : i < t.buckets_.length := by rw [hlen]; exact h
    rw [erase_if_loop]
    simp only [dif_pos h]
    by_cases hb : (bucketAt t i).isEmpty
    · have hbe : bucketAt t i = [] := List.isEmpty_eq_true.mp hb
      have ih := erase_if_loop_flat C t fn hlen (i + 1)
      rw [if_pos hb]
      constructor
      · rw [ih.1, tailFlat_succ t hi, hbe, List.nil_append]
      · rw [ih.2, tailFlat_succ t hi, takeFlat_succ t hi, hbe,
          List.nil_append, List.append_nil]
    · rw [if_neg hb]
      have happ := bucketEraseIf_append fn (bucketAt t i) (tailFlat t (i + 1))
      rcases hr : (bucketEraseIf fn (bucketAt t i)).1 with _ | o
      · have ih := erase_if_loop_flat C t fn hlen (i + 1)
        simp only [hr] at happ ⊢
        constructor
        · rw [ih.1, tailFlat_succ t hi, happ]
        · rw [ih.2, tailFlat_succ t hi, takeFlat_succ t hi, happ,
            List.append_assoc]
      · simp only [hr] at happ ⊢
        constructor
        · rw [tailFlat_succ t hi, happ]
        · rw [tailFlat_succ t hi, happ]
          simp only [allElems]
          rw [list_flatten_set t.buckets_ i _ hi]
          simp [takeFlat, tailFlat, List.append_assoc]
  · rw [erase_if_loop]
    simp only [dif_neg h]
    have hoob : t.buckets_.length ≤ i := by omega
    rw [tailFlat_oob t hoob, takeFlat_oob t hoob]
    simp [bucketEraseIf]
termination_by C.numBuckets - i

/-- The bucket-scanning loop of `erase_if`: well-formedness is preserved, a
fruitless scan changes nothing, and a successful scan removes exactly one
object. -/
theorem erase_if_loop_WF (C : HTSpec Obj) (t : HTState Obj) (fn : Obj → Bool)
    (hW : WF C t) (i : Nat) :
    WF C (erase_if_loop C t fn i).2 ∧
    ((erase_if_loop C t fn i).1 = none → (erase_if_loop C t fn i).2 = t) ∧
    (∀ o, (erase_if_loop C t fn i).1 = some o →
      size (erase_if_loop C t fn i).2 = size t - 1 ∧ 1 ≤ size t) := by
  by_cases h : i < C.numBuckets
  · rw [erase_if_loop]
    simp only [dif_pos h]
    by_cases hb : (bucketAt t i).isEmpty
    · rw [if_pos hb]
      exact erase_if_loop_WF C t fn hW (i + 1)
    · rw [if_neg hb]
      rcases hr : (bucketEraseIf fn (bucketAt t i)).1 with _ | o
      · exact erase_if_loop_WF C t fn hW (i + 1)
      · have hstate : (⟨t.buckets_.set i (bucketEraseIf fn (bucketAt t i)).2,
            t.count_ - 1⟩ : HTState Obj) = (eraseShape t i fn).2 := by
          simp [eraseShape, hr]
        refine ⟨?_, ?_, ?_⟩
        · rw [hstate]; exact eraseShape_WF C t i fn hW
        · intro hnone; cases hnone
        · intro o' _
          rw [hstate]
          have := eraseShape_some_size C t i fn o hW hr
          simpa [size] using this
  · rw [erase_if_loop]
    simp only [dif_neg h]
    refine ⟨hW, ?_, ?_⟩ <;> simp
termination_by C.numBuckets - i

/-- `erase_if` over the whole table: its result is the first match of the
predicate over all stored objects in scan order, a fruitless call leaves
the table untouched, and a successful call removes exactly that first
match. -/
theorem erase_if_flat (C : HTSpec Obj) (t : HTState Obj) (fn : Obj → Bool)
    (hW : WF C t) :
    (erase_if C t fn).1 = (allElems t).find? fn ∧
    allElems (erase_if C t fn).2 = (bucketEraseIf fn (allElems t)).2 ∧
    ((erase_if C t fn).1 = none → (erase_if C t fn).2 = t) ∧
    (∀ o, (erase_if C t fn).1 = some o →
      size (erase_if C t fn).2 = size t - 1 ∧ 1 ≤ size t) ∧
    WF C (erase_if C t fn).2 := by
  rw [erase_if]
  by_cases hemp : is_empty t
  · rw [if_pos hemp]
    have h0 : t.count_ = 0 := by simpa [is_empty] using hemp
    have hnil := allElems_of_count_zero C t hW h0
    simp [hnil, bucketEraseIf, hW]
  · rw [if_neg hemp]
    have hflat := erase_if_loop_flat C t fn hW.1 0
    have hwf := erase_if_loop_WF C t fn hW 0
    have h0 : tailFlat t 0 = allElems t := by simp [tailFlat, allElems]
    have h0' : takeFlat t 0 = [] := by simp [takeFlat]
    rw [h0, h0'] at hflat
    refine ⟨?_, ?_, hwf.2.1, hwf.2.2, hwf.1⟩
    · rw [hflat.1, bucketEraseIf_fst_eq_find?]
    · simpa using hflat.2

/-- Erase bookkeeping, bundled: well-formedness survives, a miss changes
nothing, a hit decrements the size by exactly one. -/
theorem eraseShape_trio (C : HTSpec Obj) (t : HTState Obj) (idx : Nat) (p : Obj → Bool)
    (hW : WF C t) :
    WF C (eraseShape t idx p).2 ∧
    ((eraseShape t idx p).1 = none → (eraseShape t idx p).2 = t) ∧
    (∀ o, (eraseShape t idx p).1 = some o →
      size (eraseShape t idx p).2 = size t - 1 ∧ 1 ≤ size t) := by
  refine ⟨eraseShape_WF C t idx p hW, ?_, ?_⟩
  · intro h
    exact eraseShape_none t idx p (by simpa [eraseShape] using h)
  · intro o h
    exact eraseShape_some_size C t idx p o hW (by simpa [eraseShape] using h)

theorem eraseIter_trio [DecidableEq Obj] (C : HTSpec Obj) (t : HTState Obj) (it : HTIter)
    (hW : WF C t) :
    WF C (eraseIter t it).2 ∧
    ((eraseIter t it).1 = none → (eraseIter t it).2 = t) ∧
    (∀ o, (eraseIter t it).1 = some o →
      size (eraseIter t it).2 = size t - 1 ∧ 1 ≤ size t) := by
  rcases hd : derefIter t it with _ | obj
  · refine ⟨?_, ?_, ?_⟩ <;> simp [eraseIter, hd, hW]
  · have he : eraseIter t it = direct_erase t it.bucket_ndx_ obj := by
      simp [eraseIter, hd]
    rw [he, direct_erase_eq_eraseShape]
    exact eraseShape_trio C t it.bucket_ndx_ _ hW

theorem eraseIter_HashInv [DecidableEq Obj] (C : HTSpec Obj) (t : HTState Obj)
    (it : HTIter) (hInv : HashInv C t) : HashInv C (eraseIter t it).2 := by
  rcases hd : derefIter t it with _ | obj
  · simpa [eraseIter, hd] using hInv
  · have he : eraseIter t it = direct_erase t it.bucket_ndx_ obj := by
      simp [eraseIter, hd]
    rw [he, direct_erase_eq_eraseShape]
    exact eraseShape_HashInv C t it.bucket_ndx_ _ hInv

theorem erase_if_loop_HashInv (C : HTSpec Obj) (t : HTState Obj) (fn : Obj → Bool)
    (hInv : HashInv C t) (i : Nat) : HashInv C (erase_if_loop C t fn i).2 := by
  by_cases h : i < C.numBuckets
  · rw [erase_if_loop]
    simp only [dif_pos h]
    by_cases hb : (bucketAt t i).isEmpty
    · rw [if_pos hb]
      exact erase_if_loop_HashInv C t fn hInv (i + 1)
    · rw [if_neg hb]
      rcases hr : (bucketEraseIf fn (bucketAt t i)).1 with _ | o
      · exact erase_if_loop_HashInv C t fn hInv (i + 1)
      · have hstate : (⟨t.buckets_.set i (bucketEraseIf fn (bucketAt t i)).2,
            t.count_ - 1⟩ : HTState Obj) = (eraseShape t i fn).2 := by
          simp [eraseShape, hr]
        rw [hstate]
        exact eraseShape_HashInv C t i fn hInv
  · rw [erase_if_loop]
    simp only [dif_neg h]
    exact hInv
termination_by C.numBuckets - i

theorem erase_if_HashInv (C : HTSpec Obj) (t : HTState Obj) (fn : Obj → Bool)
    (hInv : HashInv C t) : HashInv C (erase_if C t fn).2 := by
  rw [erase_if]
  by_cases hemp : is_empty t
  · rw [if_pos hemp]; exact hInv
  · rw [if_neg hemp]; exact erase_if_loop_HashInv C t fn hInv 0

/-- Membership among all stored objects, bucket by bucket. -/
theorem mem_allElems_iff (t : HTState Obj) (x : Obj) :
    x ∈ allElems t ↔ ∃ j, j < t.buckets_.length ∧ x ∈ bucketAt t j := by
  simp only [allElems, List.mem_flatten]
  constructor
  · rintro ⟨l, hl, hx⟩
    obtain ⟨j, hj, hget⟩ := List.mem_iff_getElem.mp hl
    exact ⟨j, hj, by rwa [bucketAt, list_getD_eq_getElem _ _ _ hj, hget]⟩
  · rintro ⟨j, hj, hx⟩
    exact ⟨bucketAt t j, by
      rw [bucketAt, list_getD_eq_getElem _ _ _ hj]
      exact List.getElem_mem hj, hx⟩

/-!
## Claim theorems
-/

/-- C1: for every object stored in the table, the hash of its key equals
the index of the bucket containing it, and this is preserved by every
operation: `insert` links the object into `buckets_[GetHash(GetKey(obj))]`
(and touches no other bucket), and `erase` (all variants), `erase_if` and
`clear` preserve the placement invariant — no operation relocates an
object between buckets. -/
theorem C1_hash_placement [DecidableEq Obj] (C : HTSpec Obj) (t : HTState Obj)
    (o : Obj) (key : Nat) (fn : Obj → Bool) (it : HTIter)
    (hW : WF C t) (hInv : HashInv C t) :
    bucketAt (insert C t o) (GetHash C (C.getKey o))
        = o :: bucketAt t (GetHash C (C.getKey o)) ∧
    (∀ j, j ≠ GetHash C (C.getKey o) → bucketAt (insert C t o) j = bucketAt t j) ∧
    HashInv C (insert C t o) ∧
    HashInv C (erase C t key).2 ∧
    HashInv C (eraseIter t it).2 ∧
    HashInv C (eraseObj C t o).2 ∧
    HashInv C (erase_if C t fn).2 ∧
    HashInv C (clear t) := by
  refine ⟨insert_bucket_self C t o hW.1, ?_, insert_HashInv C t o hW.1 hInv, ?_, ?_, ?_, ?_, ?_⟩
  · intro j hj
    exact insert_bucket_other C t o hj
  · rw [erase_eq_eraseShape]
    exact eraseShape_HashInv C t _ _ hInv
  · exact eraseIter_HashInv C t it hInv
  · rw [eraseObj, direct_erase_eq_eraseShape]
    exact eraseShape_HashInv C t _ _ hInv
  · exact erase_if_HashInv C t fn hInv
  · exact clear_HashInv C t

theorem C1_hash_placement_witness :
    (WF specMod4 tScenario ∧ HashInv specMod4 tScenario) ∧
      HashInv specMod4 (insert specMod4 tScenario 7) :=
  ⟨⟨by decide, by decide⟩,
    (C1_hash_placement specMod4 tScenario 7 5 (fun x => x % 2 == 0) ⟨1, 0⟩
      (by decide) (by decide)).2.2.1⟩

/-- C2: the maintained count always equals the sum of the bucket lengths
(`WF` is preserved by `insert`, every erase variant, `erase_if` and
`clear`); `insert` increments `size` by one, a successful erase decrements
it by one, an unsuccessful erase changes nothing at all, `clear` empties
every bucket and resets the count to zero, and `size`/`is_empty` report
the maintained count. -/
theorem C2_count_invariant [DecidableEq Obj] (C : HTSpec Obj) (t : HTState Obj)
    (o : Obj) (key : Nat) (fn : Obj → Bool) (it : HTIter) (hW : WF C t) :
    size t = (t.buckets_.map List.length).sum ∧
    (WF C (insert C t o) ∧ size (insert C t o) = size t + 1) ∧
    (WF C (erase C t key).2 ∧
      ((erase C t key).1 = none → (erase C t key).2 = t) ∧
      (∀ x, (erase C t key).1 = some x →
        size (erase C t key).2 = size t - 1 ∧ 1 ≤ size t)) ∧
    (WF C (eraseIter t it).2 ∧
      ((eraseIter t it).1 = none → (eraseIter t it).2 = t) ∧
      (∀ x, (eraseIter t it).1 = some x →
        size (eraseIter t it).2 = size t - 1 ∧ 1 ≤ size t)) ∧
    (WF C (eraseObj C t o).2 ∧
      ((eraseObj C t o).1 = none → (eraseObj C t o).2 = t) ∧
      (∀ x, (eraseObj C t o).1 = some x →
        size (eraseObj C t o).2 = size t - 1 ∧ 1 ≤ size t)) ∧
    (WF C (erase_if C t fn).2 ∧
      ((erase_if C t fn).1 = none → (erase_if C t fn).2 = t) ∧
      (∀ x, (erase_if C t fn).1 = some x →
        size (erase_if C t fn).2 = size t - 1 ∧ 1 ≤ size t)) ∧
    (WF C (clear t) ∧ size (clear t) = 0 ∧ ∀ j, bucketAt (clear t) j = []) ∧
    (is_empty t = true ↔ size t = 0) := by
  have hif := erase_if_flat C t fn hW
  refine ⟨hW.2, ⟨insert_WF C t o hW, insert_size C t o⟩, ?_, ?_, ?_,
    ⟨hif.2.2.2.2, hif.2.2.1, hif.2.2.2.1⟩,
    ⟨clear_WF C t hW.1, clear_size t, clear_bucket t⟩, ?_⟩
  · rw [erase_eq_eraseShape]
    exact eraseShape_trio C t _ _ hW
  · exact eraseIter_trio C t it hW
  · rw [eraseObj, direct_erase_eq_eraseShape]
    exact eraseShape_trio C t _ _ hW
  · simp [is_empty, size]

theorem C2_count_invariant_witness :
    WF specMod4 tScenario ∧
      (WF specMod4 (insert specMod4 tScenario 7) ∧
        size (insert specMod4 tScenario 7) = size tScenario + 1) :=
  ⟨by decide,
    (C2_count_invariant specMod4 tScenario 7 5 (fun x => x % 2 == 0) ⟨1, 0⟩
      (by decide)).2.1⟩

/-- C5: `erase_if` returns the first stored object satisfying the
predicate, buckets scanned in ascending index order and each bucket in
chain order (i.e. the first match of the scan-order list of all stored
objects); it removes exactly that object (so each call removes at most
one, and repeated calls drain the matches one at a time), and when no
stored object matches it returns `none` and leaves the table unchanged. -/
theorem C5_erase_if_first_match (C : HTSpec Obj) (t : HTState Obj) (fn : Obj → Bool)
    (hW : WF C t) :
    (erase_if C t fn).1 = (allElems t).find? fn ∧
    ((erase_if C t fn).1 = none → (erase_if C t fn).2 = t) ∧
    (∀ o, (erase_if C t fn).1 = some o →
      ∃ l₁ l₂, allElems t = l₁ ++ o :: l₂ ∧ (∀ x ∈ l₁, fn x = false) ∧ fn o = true ∧
        allElems (erase_if C t fn).2 = l₁ ++ l₂ ∧
        size (erase_if C t fn).2 = size t - 1 ∧
        (allElems (erase_if C t fn).2).countP fn + 1 = (allElems t).countP fn) := by
  obtain ⟨hfst, hsnd, hnone, hsome, -⟩ := erase_if_flat C t fn hW
  refine ⟨hfst, hnone, ?_⟩
  intro o ho
  have hbe : (bucketEraseIf fn (allElems t)).1 = some o := by
    rw [bucketEraseIf_fst_eq_find?, ← hfst, ho]
  obtain ⟨l₁, l₂, hdec, hl₁, hfn, hrest⟩ := bucketEraseIf_some_decomp fn o (allElems t) hbe
  exact ⟨l₁, l₂, hdec, hl₁, hfn, by rw [hsnd, hrest], (hsome o ho).1,
    by rw [hsnd]; exact bucketEraseIf_some_countP hbe⟩

theorem C5_erase_if_first_match_witness :
    WF specMod4 tScenario ∧
      (erase_if specMod4 tScenario (fun x => x % 2 == 0)).1
        = (allElems tScenario).find? (fun x => x % 2 == 0) :=
  ⟨by decide,
    (C5_erase_if_first_match specMod4 tScenario (fun x => x % 2 == 0) (by decide)).1⟩

/-- C10: `size_slow()` returns exactly the same value as `size()` — it is a
direct call to `size()` reading the maintained count — and on every
well-formed (hence every reachable) state that common value is what a walk
over the buckets would have counted. -/
theorem C10_size_slow_eq_size (C : HTSpec Obj) (t : HTState Obj) (hW : WF C t) :
    size_slow t = size t ∧ size_slow t = (t.buckets_.map List.length).sum :=
  ⟨rfl, hW.2⟩

theorem C10_size_slow_eq_size_witness :
    WF specMod4 tScenario ∧ size_slow tScenario = size tScenario :=
  ⟨by decide, (C10_size_slow_eq_size specMod4 tScenario (by decide)).1⟩

/-- C3: `find(key)` inspects only the bucket at index `GetHash(key)` (its
result depends on nothing else), returns the first object of that bucket's
chain whose key is `EqualTo` the searched key, and `none` exactly when no
object of that bucket matches; immediately after inserting an object with
that key, `find` returns precisely that stored object. -/
theorem C3_find_first_in_bucket (C : HTSpec Obj) (t : HTState Obj) (key : Nat) (o : Obj)
    (hW : WF C t) :
    (∀ t' : HTState Obj, bucketAt t' (GetHash C key) = bucketAt t (GetHash C key) →
      find C t' key = find C t key) ∧
    (∀ x, find C t key = some x →
      x ∈ bucketAt t (GetHash C key) ∧ key = C.getKey x) ∧
    (find C t key = none ↔ ∀ x ∈ bucketAt t (GetHash C key), key ≠ C.getKey x) ∧
    (∀ l₁ x l₂, bucketAt t (GetHash C key) = l₁ ++ x :: l₂ →
      (∀ y ∈ l₁, key ≠ C.getKey y) → key = C.getKey x →
      find C t key = some x) ∧
    find C (insert C t o) (C.getKey o) = some o := by
  refine ⟨?_, ?_, ?_, ?_, ?_⟩
  · intro t' ht'
    simp [find, ht']
  · intro x hx
    exact ⟨List.mem_of_find?_eq_some hx, by simpa using List.find?_some hx⟩
  · rw [find, List.find?_eq_none]
    constructor
    · intro h x hx
      simpa using h x hx
    · intro h x hx
      simpa using h x hx
  · intro l₁ x l₂ hdec h₁ hx
    have hnone : l₁.find? (fun other => key == C.getKey other) = none :=
      List.find?_eq_none.mpr (fun y hy => by simpa using h₁ y hy)
    rw [find, hdec, List.find?_append, hnone, Option.none_or, List.find?_cons]
    simp [← hx]
  · rw [find, insert_bucket_self C t o hW.1, List.find?_cons]
    simp

theorem C3_find_first_in_bucket_witness :
    WF specMod4 tScenario ∧ find specMod4 (insert specMod4 tScenario 13) 13 = some 13 :=
  ⟨by decide,
    (C3_find_first_in_bucket specMod4 tScenario 5 13 (by decide)).2.2.2.2⟩

/-- C4: `erase(key)` removes exactly the first object with a matching key
from the target bucket and returns it, decrementing `size` by exactly one;
on an absent key it returns `none` and leaves the whole state (count and
every bucket) unchanged; and after inserting two distinct objects with
equal keys into a table containing neither, one `erase(key)` removes the
most recently inserted one and keeps the other stored. -/
theorem C4_erase_key [DecidableEq Obj] (C : HTSpec Obj) (t : HTState Obj) (key : Nat)
    (hW : WF C t) :
    ((erase C t key).1 = none → (erase C t key).2 = t) ∧
    (erase C t key).1 = (bucketAt t (GetHash C key)).find? (fun x => key == C.getKey x) ∧
    (∀ o, (erase C t key).1 = some o →
      size (erase C t key).2 = size t - 1 ∧ 1 ≤ size t ∧
      ∃ l₁ l₂, bucketAt t (GetHash C key) = l₁ ++ o :: l₂ ∧
        (∀ x ∈ l₁, key ≠ C.getKey x) ∧ key = C.getKey o ∧
        bucketAt (erase C t key).2 (GetHash C key) = l₁ ++ l₂ ∧
        (∀ j, j ≠ GetHash C key → bucketAt (erase C t key).2 j = bucketAt t j)) ∧
    (∀ a b, C.getKey a = key → C.getKey b = key →
      a ∉ allElems t → b ∉ allElems t → a ≠ b →
      (erase C (insert C (insert C t a) b) key).1 = some b ∧
      size (erase C (insert C (insert C t a) b) key).2
        = size (insert C (insert C t a) b) - 1 ∧
      a ∈ allElems (erase C (insert C (insert C t a) b) key).2 ∧
      b ∉ allElems (erase C (insert C (insert C t a) b) key).2) := by
  refine ⟨?_, eraseShape_fst t (GetHash C key) _, ?_, ?_⟩
  · intro h
    rw [erase_eq_eraseShape]
    exact (eraseShape_trio C t (GetHash C key) _ hW).2.1 h
  · intro o ho
    have hfst : (bucketEraseIf (fun x => key == C.getKey x)
        (bucketAt t (GetHash C key))).1 = some o := ho
    have hsz := eraseShape_some_size C t (GetHash C key) _ o hW hfst
    have hlt := eraseShape_some_lt hfst
    obtain ⟨l₁, l₂, hdec, hl₁, hp, hsnd⟩ :=
      bucketEraseIf_some_decomp _ o (bucketAt t (GetHash C key)) hfst
    refine ⟨hsz.1, hsz.2, l₁, l₂, hdec, ?_, by simpa using hp, ?_, ?_⟩
    · intro x hx
      simpa using hl₁ x hx
    · show (t.buckets_.set (GetHash C key) _).getD (GetHash C key) [] = l₁ ++ l₂
      rw [list_getD_set_self _ _ _ _ hlt, hsnd]
    · intro j hj
      show (t.buckets_.set (GetHash C key) _).getD j [] = bucketAt t j
      exact list_getD_set_ne _ _ _ (fun h => hj h.symm)
  · intro a b ha hb hamem hbmem hab
    have hW1 : WF C (insert C t a) := insert_WF C t a hW
    have hW2 : WF C (insert C (insert C t a) b) := insert_WF C _ b hW1
    have hbucket : bucketAt (insert C (insert C t a) b) (GetHash C key)
        = b :: a :: bucketAt t (GetHash C key) := by
      have h2 := insert_bucket_self C (insert C t a) b hW1.1
      have h1 := insert_bucket_self C t a hW.1
      rw [hb] at h2
      rw [ha] at h1
      rw [h2, h1]
    have hfst : (bucketEraseIf (fun x => key == C.getKey x)
        (bucketAt (insert C (insert C t a) b) (GetHash C key))).1 = some b := by
      rw [hbucket]
      simp [bucketEraseIf, hb]
    have hsnd : (bucketEraseIf (fun x => key == C.getKey x)
        (bucketAt (insert C (insert C t a) b) (GetHash C key))).2
          = a :: bucketAt t (GetHash C key) := by
      rw [hbucket]
      simp [bucketEraseIf, hb]
    have hlt2 : GetHash C key < (insert C (insert C t a) b).buckets_.length := by
      rw [hW2.1]
      exact C.hash_range _
    have hbres : bucketAt (erase C (insert C (insert C t a) b) key).2 (GetHash C key)
        = a :: bucketAt t (GetHash C key) := by
      show ((insert C (insert C t a) b).buckets_.set (GetHash C key) _).getD
        (GetHash C key) [] = _
      rw [list_getD_set_self _ _ _ _ hlt2, hsnd]
    have hbres_ne : ∀ j, j ≠ GetHash C key →
        bucketAt (erase C (insert C (insert C t a) b) key).2 j = bucketAt t j := by
      intro j hj
      have h0 : ((insert C (insert C t a) b).buckets_.set (GetHash C key)
          (bucketEraseIf (fun x => key == C.getKey x)
            (bucketAt (insert C (insert C t a) b) (GetHash C key))).2).getD j []
          = bucketAt (insert C (insert C t a) b) j :=
        list_getD_set_ne _ _ _ (fun h => hj h.symm)
      have h2 : bucketAt (insert C (insert C t a) b) j = bucketAt (insert C t a) j := by
        refine insert_bucket_other C _ b ?_
        rw [hb]; exact hj
      have h1 : bucketAt (insert C t a) j = bucketAt t j := by
        refine insert_bucket_other C _ a ?_
        rw [ha]; exact hj
      exact h0.trans (h2.trans h1)
    have hlen_res : (erase C (insert C (insert C t a) b) key).2.buckets_.length
        = (insert C (insert C t a) b).buckets_.length := by
      show ((insert C (insert C t a) b).buckets_.set _ _).length = _
      exact List.length_set _ _ _
    refine ⟨hfst, (eraseShape_some_size C _ (GetHash C key) _ b hW2 hfst).1, ?_, ?_⟩
    · rw [mem_allElems_iff]
      refine ⟨GetHash C key, ?_, ?_⟩
      · rw [hlen_res]; exact hlt2
      · rw [hbres]; exact List.mem_cons_self _ _
    · intro hmem
      obtain ⟨j, hj, hbj⟩ := (mem_allElems_iff _ b).mp hmem
      by_cases hjx : j = GetHash C key
      · subst hjx
        rw [hbres] at hbj
        rcases List.mem_cons.mp hbj with h | h
        · exact hab h.symm
        · refine hbmem ((mem_allElems_iff t b).mpr ⟨GetHash C key, ?_, h⟩)
          rw [hW.1]
          exact C.hash_range _
      · rw [hbres_ne j hjx] at hbj
        refine hbmem ((mem_allElems_iff t b).mpr ⟨j, ?_, hbj⟩)
        rw [hW.1]
        rw [hlen_res, hW2.1] at hj
        exact hj

theorem C4_erase_key_witness :
    WF specMod4 tScenario ∧
      ((erase specMod4 tScenario 7).1 = none → (erase specMod4 tScenario 7).2 = tScenario) :=
  ⟨by decide, (C4_erase_key specMod4 tScenario 7 (by decide)).1⟩

/-!
## Iterator lemmas
-/

theorem advance_loop_last (C : HTSpec Obj) (t : HTState Obj) (it : HTIter)
    (h : ¬ it.bucket_ndx_ < C.numBuckets - 1) : advance_loop C t it = it := by
  rw [advance_loop]
  simp [h]

theorem advance_loop_nonempty (C : HTSpec Obj) (t : HTState Obj) (it : HTIter)
    (h : it.bucket_ndx_ < C.numBuckets - 1)
    (hb : bucketAt t (it.bucket_ndx_ + 1) ≠ []) :
    advance_loop C t it = ⟨it.bucket_ndx_ + 1, 0⟩ := by
  rw [advance_loop]
  simp [h, hb]

theorem advance_loop_empty_last (C : HTSpec Obj) (t : HTState Obj) (it : HTIter)
    (h : it.bucket_ndx_ < C.numBuckets - 1)
    (hb : bucketAt t (it.bucket_ndx_ + 1) = [])
    (h2 : it.bucket_ndx_ + 1 = C.numBuckets - 1) :
    advance_loop C t it = ⟨it.bucket_ndx_ + 1, 0⟩ := by
  rw [advance_loop, dif_pos h]
  have hbe : (bucketAt t (it.bucket_ndx_ + 1)).isEmpty = true := by rw [hb]; rfl
  simp only [hbe, Bool.not_true, Bool.false_eq_true, if_false, if_pos h2, hb,
    List.length_nil, List.isEmpty_nil, ite_self]

theorem advance_loop_empty_step (C : HTSpec Obj) (t : HTState Obj) (it : HTIter)
    (h : it.bucket_ndx_ < C.numBuckets - 1)
    (hb : bucketAt t (it.bucket_ndx_ + 1) = [])
    (h2 : ¬ it.bucket_ndx_ + 1 = C.numBuckets - 1) :
    advance_loop C t it = advance_loop C t ⟨it.bucket_ndx_ + 1, it.pos_⟩ := by
  conv_lhs => rw [advance_loop]
  simp [h, hb, h2]

/-- The end sentinel's in-bucket iterator is invalid. -/
theorem endIter_invalid (C : HTSpec Obj) (t : HTState Obj) :
    iterValid t (endIter C t) = false := by
  simp [iterValid, endIter]

/-- Nothing is ahead of the end sentinel. -/
theorem restOf_endIter (C : HTSpec Obj) (t : HTState Obj)
    (hlen : t.buckets_.length = C.numBuckets) :
    restOf t (endIter C t) = [] := by
  simp only [restOf, endIter, List.drop_length, List.nil_append]
  refine tailFlat_oob t ?_
  rw [hlen]
  have := C.buckets_pos
  omega

/-- Specification of the upward bucket-search loop
(`advance_if_invalid_iter`'s `while`): starting below the last bucket index
(or exactly at it, positioned at that bucket's end), the loop lands on a
bucket index below `kNumBuckets`; what lies ahead of the landing point is
exactly the contents of the buckets after the starting one; the landing
point is either valid (at position 0 of a non-empty bucket) or the end
sentinel; and every bucket strictly between start and landing point is
empty. -/
theorem advance_loop_spec (C : HTSpec Obj) (t : HTState Obj)
    (hlen : t.buckets_.length = C.numBuckets) (it : HTIter)
    (hi : it.bucket_ndx_ < C.numBuckets)
    (hlast : it.bucket_ndx_ = C.numBuckets - 1 →
      it.pos_ = (bucketAt t it.bucket_ndx_).length) :
    (advance_loop C t it).bucket_ndx_ < C.numBuckets ∧
    restOf t (advance_loop C t it) = tailFlat t (it.bucket_ndx_ + 1) ∧
    (iterValid t (advance_loop C t it) = true ∨ advance_loop C t it = endIter C t) ∧
    (iterValid t (advance_loop C t it) = true → (advance_loop C t it).pos_ = 0) ∧
    (∀ k, it.bucket_ndx_ < k → k < (advance_loop C t it).bucket_ndx_ →
      bucketAt t k = []) := by
  by_cases h : it.bucket_ndx_ < C.numBuckets - 1
  · by_cases hb : bucketAt t (it.bucket_ndx_ + 1) = []
    · by_cases h2 : it.bucket_ndx_ + 1 = C.numBuckets - 1
      · rw [advance_loop_empty_last C t it h hb h2]
        have hb' : bucketAt t (C.numBuckets - 1) = [] := by
          rw [← h2]; exact hb
        have hend : (⟨it.bucket_ndx_ + 1, 0⟩ : HTIter) = endIter C t := by
          simp only [endIter, HTIter.mk.injEq]
          refine ⟨h2, ?_⟩
          rw [hb']
          rfl
        refine ⟨?_, ?_, Or.inr hend, ?_, ?_⟩
        · show it.bucket_ndx_ + 1 < C.numBuckets
          omega
        · rw [hend, restOf_endIter C t hlen]
          have hnext : t.buckets_.length ≤ it.bucket_ndx_ + 1 + 1 := by
            rw [hlen]; omega
          rw [tailFlat_succ t (by rw [hlen]; omega : it.bucket_ndx_ + 1 < t.buckets_.length),
            hb, tailFlat_oob t hnext]
          rfl
        · intro hv
          rw [hend, endIter_invalid C t] at hv
        · intro k h1k h2k
          have h2k' : k < it.bucket_ndx_ + 1 := h2k
          omega
      · rw [advance_loop_empty_step C t it h hb h2]
        have hrec := advance_loop_spec C t hlen ⟨it.bucket_ndx_ + 1, it.pos_⟩
          (by show it.bucket_ndx_ + 1 < C.numBuckets; omega)
          (fun hx => absurd hx h2)
        obtain ⟨r1, r2, r3, r4, r5⟩ := hrec
        refine ⟨r1, ?_, r3, r4, ?_⟩
        · rw [r2, tailFlat_succ t (by rw [hlen]; omega : it.bucket_ndx_ + 1 < t.buckets_.length),
            hb, List.nil_append]
        · intro k h1k h2k
          rcases Nat.lt_or_ge (it.bucket_ndx_ + 1) k with hk | hk
          · exact r5 k hk h2k
          · have hke : k = it.bucket_ndx_ + 1 := by omega
            rw [hke]
            exact hb
    · rw [advance_loop_nonempty C t it h hb]
      refine ⟨?_, ?_, ?_, ?_, ?_⟩
      · show it.bucket_ndx_ + 1 < C.numBuckets
        omega
      · show (bucketAt t (it.bucket_ndx_ + 1)).drop 0 ++ tailFlat t (it.bucket_ndx_ + 1 + 1)
          = tailFlat t (it.bucket_ndx_ + 1)
        rw [tailFlat_succ t (by rw [hlen]; omega : it.bucket_ndx_ + 1 < t.buckets_.length),
          List.drop_zero]
      · refine Or.inl ?_
        show decide (0 < (bucketAt t (it.bucket_ndx_ + 1)).length) = true
        simp [List.length_pos, hb]
      · intro _
        rfl
      · intro k h1k h2k
        have h2k' : k < it.bucket_ndx_ + 1 := h2k
        omega
  · rw [advance_loop_last C t it h]
    have hndx : it.bucket_ndx_ = C.numBuckets - 1 := by
      have := C.buckets_pos
      omega
    have hpos := hlast hndx
    have hend : it = endIter C t := by
      cases it with
      | mk n p =>
        simp only at hndx hpos
        subst hndx
        simp [endIter, hpos]
    refine ⟨hi, ?_, Or.inr hend, ?_, ?_⟩
    · have h1 : restOf t it = [] := by
        rw [hend]
        exact restOf_endIter C t hlen
      rw [h1]
      refine (tailFlat_oob t ?_).symm
      rw [hlen]
      omega
    · intro hv
      rw [hend, endIter_invalid C t] at hv
      cases hv
    · intro k h1k h2k
      omega
termination_by C.numBuckets - 1 - it.bucket_ndx_

/-- Full traversal by repeated `operator++`: starting from any iterator
that is either valid or the end sentinel, with fuel equal to the number of
objects ahead of it, the collected visit sequence is exactly those objects
in scan order and the final iterator is the end sentinel. -/
theorem iterPath_spec (C : HTSpec Obj) (t : HTState Obj)
    (hlen : t.buckets_.length = C.numBuckets) :
    ∀ (n : Nat) (it : HTIter), it.bucket_ndx_ < C.numBuckets →
      (iterValid t it = true ∨ it = endIter C t) →
      n = (restOf t it).length →
      iterPath C t n it = (restOf t it, endIter C t) := by
  intro n
  induction n with
  | zero =>
    intro it hnd hval hn
    rcases hval with hv | he
    · exfalso
      have hpos : it.pos_ < (bucketAt t it.bucket_ndx_).length := by
        simpa [iterValid] using hv
      simp only [restOf, List.length_append, List.length_drop] at hn
      omega
    · have hrest : restOf t it = [] := by
        rw [he]
        exact restOf_endIter C t hlen
      simp only [iterPath]
      rw [hrest, he]
  | succ n ih =>
    intro it hnd hval hn
    have hv : iterValid t it = true := by
      rcases hval with hv | he
      · exact hv
      · exfalso
        rw [he, restOf_endIter C t hlen] at hn
        simp at hn
    have hpos : it.pos_ < (bucketAt t it.bucket_ndx_).length := by
      simpa [iterValid] using hv
    have hderef : derefIter t it = some ((bucketAt t it.bucket_ndx_)[it.pos_]) := by
      simp [derefIter, List.get?_eq_getElem?, List.getElem?_eq_getElem hpos]
    have hdrop := List.drop_eq_getElem_cons hpos
    have hincr : incr C t it = advance_if_invalid_iter C t ⟨it.bucket_ndx_, it.pos_ + 1⟩ := by
      simp [incr, hv]
    simp only [iterPath, hderef]
    by_cases hv2 : it.pos_ + 1 < (bucketAt t it.bucket_ndx_).length
    · have hval2 : iterValid t (⟨it.bucket_ndx_, it.pos_ + 1⟩ : HTIter) = true := by
        simpa [iterValid] using hv2
      have hadv : incr C t it = ⟨it.bucket_ndx_, it.pos_ + 1⟩ := by
        rw [hincr]
        simp [advance_if_invalid_iter, hval2]
      have hn2 : n = (restOf t (⟨it.bucket_ndx_, it.pos_ + 1⟩ : HTIter)).length := by
        simp only [restOf, List.length_append, List.length_drop] at hn ⊢
        omega
      have hih := ih ⟨it.bucket_ndx_, it.pos_ + 1⟩ hnd (Or.inl hval2) hn2
      rw [hadv, hih]
      simp only [Prod.mk.injEq, and_true]
      show _ = (bucketAt t it.bucket_ndx_).drop it.pos_ ++ tailFlat t (it.bucket_ndx_ + 1)
      rw [hdrop]
      rfl
    · have hlen2 : it.pos_ + 1 = (bucketAt t it.bucket_ndx_).length := by omega
      have hval2 : iterValid t (⟨it.bucket_ndx_, it.pos_ + 1⟩ : HTIter) = false := by
        simp only [iterValid]
        simp only [decide_eq_false_iff_not]
        omega
      have hadv : incr C t it = advance_loop C t ⟨it.bucket_ndx_, it.pos_ + 1⟩ := by
        rw [hincr]
        simp [advance_if_invalid_iter, hval2]
      obtain ⟨s1, s2, s3, s4, s5⟩ := advance_loop_spec C t hlen
        ⟨it.bucket_ndx_, it.pos_ + 1⟩ hnd (fun _ => hlen2)
      simp only [] at s1 s2 s3 s4 s5
      have hdropnil : (bucketAt t it.bucket_ndx_).drop (it.pos_ + 1) = [] :=
        List.drop_eq_nil_of_le (by omega)
      have hn2 : n = (restOf t (advance_loop C t ⟨it.bucket_ndx_, it.pos_ + 1⟩)).length := by
        rw [s2]
        simp only [restOf, List.length_append, List.length_drop] at hn
        omega
      have hih := ih _ s1 s3 hn2
      rw [hadv, hih, s2]
      simp only [Prod.mk.injEq, and_true]
      show _ = (bucketAt t it.bucket_ndx_).drop it.pos_ ++ tailFlat t (it.bucket_ndx_ + 1)
      rw [hdrop, hdropnil]
      rfl

/-- The `begin()` iterator: bucket 0 advanced past any leading empty
buckets.  It sees every stored object ahead of it, is valid (at position 0
of the first non-empty bucket) or the end sentinel, and every bucket
before it is empty. -/
theorem beginIter_spec (C : HTSpec Obj) (t : HTState Obj)
    (hlen : t.buckets_.length = C.numBuckets) :
    (beginIter C t).bucket_ndx_ < C.numBuckets ∧
    restOf t (beginIter C t) = allElems t ∧
    (iterValid t (beginIter C t) = true ∨ beginIter C t = endIter C t) ∧
    (iterValid t (beginIter C t) = true → (beginIter C t).pos_ = 0) ∧
    (∀ k, k < (beginIter C t).bucket_ndx_ → bucketAt t k = []) := by
  have hN := C.buckets_pos
  have h0 : (0 : Nat) < t.buckets_.length := by rw [hlen]; exact hN
  have hflat : tailFlat t 0 = allElems t := by
    simp [tailFlat, allElems]
  by_cases hv : iterValid t (⟨0, 0⟩ : HTIter) = true
  · have hbegin : beginIter C t = ⟨0, 0⟩ := by
      simp [beginIter, advance_if_invalid_iter, hv]
    rw [hbegin]
    refine ⟨hN, ?_, Or.inl hv, fun _ => rfl, ?_⟩
    · show (bucketAt t 0).drop 0 ++ tailFlat t 1 = allElems t
      rw [List.drop_zero, ← hflat, tailFlat_succ t h0]
    · intro k hk
      have hk' : k < 0 := hk
      omega
  · have hbegin : beginIter C t = advance_loop C t ⟨0, 0⟩ := by
      simp [beginIter, advance_if_invalid_iter, hv]
    have hb0 : bucketAt t 0 = [] := by
      simp only [iterValid, decide_eq_true_eq] at hv
      have : (bucketAt t 0).length = 0 := by
        have := fun h => hv h
        omega
      exact List.length_eq_zero.mp this
    obtain ⟨s1, s2, s3, s4, s5⟩ := advance_loop_spec C t hlen ⟨0, 0⟩ hN
      (fun _ => by rw [hb0]; rfl)
    simp only [] at s1 s2 s3 s4 s5
    rw [hbegin]
    refine ⟨s1, ?_, s3, s4, ?_⟩
    · rw [s2, ← hflat, tailFlat_succ t h0, hb0, List.nil_append]
    · intro k hk
      rcases Nat.eq_zero_or_pos k with hk0 | hk0
      · rw [hk0]; exact hb0
      · exact s5 k hk0 hk

/-- The downward scan of `operator--` over all-empty lower buckets lands on
the end sentinel. -/
theorem decr_scan_all_empty (C : HTSpec Obj) (t : HTState Obj) :
    ∀ (j : Nat), (∀ k, k < j → bucketAt t k = []) → decr_scan C t j = endIter C t
  | 0, _ => rfl
  | Nat.succ m, h => by
    have hm : bucketAt t m = [] := h m (Nat.lt_succ_self m)
    rw [decr_scan]
    simp only [hm, List.isEmpty_nil, Bool.not_true, Bool.false_eq_true, if_false]
    exact decr_scan_all_empty C t m (fun k hk => h k (Nat.lt_succ_of_lt hk))

/-- A table with no stored objects has every bucket empty. -/
theorem bucket_empty_of_allElems_nil (t : HTState Obj) (h : allElems t = []) :
    ∀ k, bucketAt t k = [] := by
  intro k
  rcases Nat.lt_or_ge k t.buckets_.length with hk | hk
  · have hmem : bucketAt t k ∈ t.buckets_ := by
      rw [bucketAt, list_getD_eq_getElem _ _ _ hk]
      exact List.getElem_mem hk
    exact List.flatten_eq_nil_iff.mp h _ hmem
  · exact bucketAt_oob t hk

/-- C6: forward iteration from `begin()` with `size()` steps visits exactly
the stored objects, each exactly once, in ascending bucket order (chain
order within each bucket), ends exactly at `end()`, and `begin()` has
skipped precisely the leading empty buckets. -/
theorem C6_forward_iteration (C : HTSpec Obj) (t : HTState Obj) (hW : WF C t) :
    (iterPath C t (size t) (beginIter C t)).1 = allElems t ∧
    (iterPath C t (size t) (beginIter C t)).2 = endIter C t ∧
    (allElems t).length = size t ∧
    (∀ k, k < (beginIter C t).bucket_ndx_ → bucketAt t k = []) := by
  obtain ⟨h1, h2, h3, h4, h5⟩ := beginIter_spec C t hW.1
  have hsz : size t = (restOf t (beginIter C t)).length := by
    rw [h2]
    show t.count_ = _
    rw [hW.2, allElems, List.length_flatten]
  have hp := iterPath_spec C t hW.1 (size t) (beginIter C t) h1 h3 hsz
  refine ⟨?_, ?_, ?_, h5⟩
  · rw [hp]
    exact h2
  · rw [hp]
  · show (t.buckets_.flatten).length = t.count_
    rw [List.length_flatten, hW.2]

theorem C6_forward_iteration_witness :
    WF specMod4 tScenario ∧
      (iterPath specMod4 tScenario (size tScenario) (beginIter specMod4 tScenario)).1
        = allElems tScenario :=
  ⟨by decide, (C6_forward_iteration specMod4 tScenario (by decide)).1⟩

/-- C7: decrementing the `begin()` iterator is not a no-op: it wraps to the
end sentinel (bucket index `kNumBuckets - 1`, position at that bucket's
end), which compares equal to `end()`; more generally, any bound iterator
whose backward step invalidates its in-bucket iterator and that has no
earlier non-empty bucket wraps to the end sentinel. -/
theorem C7_decrement_begin_wraps (C : HTSpec Obj) (t : HTState Obj) (hW : WF C t) :
    decr C t (beginIter C t) = endIter C t ∧
    (decr C t (beginIter C t)).bucket_ndx_ = C.numBuckets - 1 ∧
    (decr C t (beginIter C t)).pos_ = (bucketAt t (C.numBuckets - 1)).length ∧
    iterEq t (decr C t (beginIter C t)) (endIter C t) = true ∧
    (∀ it : HTIter,
      (∀ k, k < it.bucket_ndx_ → bucketAt t k = []) →
      ¬ bucketDecr (bucketAt t it.bucket_ndx_).length it.pos_
          < (bucketAt t it.bucket_ndx_).length →
      decr C t it = endIter C t) := by
  have hgen : ∀ it : HTIter,
      (∀ k, k < it.bucket_ndx_ → bucketAt t k = []) →
      ¬ bucketDecr (bucketAt t it.bucket_ndx_).length it.pos_
          < (bucketAt t it.bucket_ndx_).length →
      decr C t it = endIter C t := by
    intro it hk hinv
    simp only [decr]
    rw [if_neg hinv]
    exact decr_scan_all_empty C t it.bucket_ndx_ hk
  obtain ⟨h1, h2, h3, h4, h5⟩ := beginIter_spec C t hW.1
  have hmain : decr C t (beginIter C t) = endIter C t := by
    rcases h3 with hv | he
    · refine hgen _ h5 ?_
      rw [h4 hv]
      simp [bucketDecr]
    · have hempty : ∀ k, bucketAt t k = [] := by
        refine bucket_empty_of_allElems_nil t ?_
        rw [← h2, he, restOf_endIter C t hW.1]
      refine hgen _ (fun k _ => hempty k) ?_
      rw [hempty (beginIter C t).bucket_ndx_]
      simp only [List.length_nil]
      exact Nat.not_lt_zero _
  refine ⟨hmain, by rw [hmain]; rfl, by rw [hmain]; rfl, ?_, hgen⟩
  rw [hmain]
  simp [iterEq, endIter_invalid]

theorem C7_decrement_begin_wraps_witness :
    WF specMod4 tScenario ∧
      decr specMod4 tScenario (beginIter specMod4 tScenario) = endIter specMod4 tScenario :=
  ⟨by decide, (C7_decrement_begin_wraps specMod4 tScenario (by decide)).1⟩

/-- C8: incrementing any iterator whose in-bucket position is invalid — in
particular the `end()` iterator — is a no-op: `operator++` returns the
iterator unchanged, so it stays equal to `end()`. -/
theorem C8_increment_end_noop (C : HTSpec Obj) (t : HTState Obj) (it : HTIter)
    (h : iterValid t it = false) :
    incr C t it = it ∧
    incr C t (endIter C t) = endIter C t ∧
    iterEq t (incr C t (endIter C t)) (endIter C t) = true := by
  have h1 : ∀ j : HTIter, iterValid t j = false → incr C t j = j := by
    intro j hj
    simp [incr, hj]
  refine ⟨h1 it h, h1 _ (endIter_invalid C t), ?_⟩
  rw [h1 _ (endIter_invalid C t)]
  simp [iterEq, endIter_invalid]

theorem C8_increment_end_noop_witness :
    iterValid tScenario (⟨0, 5⟩ : HTIter) = false ∧
      incr specMod4 tScenario ⟨0, 5⟩ = (⟨0, 5⟩ : HTIter) :=
  ⟨by decide, (C8_increment_end_noop specMod4 tScenario ⟨0, 5⟩ (by decide)).1⟩

/-- C9: the spec's concrete scenario.  With 4 buckets and `hash(k) = k % 4`,
inserting keys 1, 5, 9, 2 into a fresh table puts chain `[9, 5, 1]` in
bucket 1 (push-front order) and `[2]` in bucket 2, `size() = 4`, forward
iteration visits `[9, 5, 1, 2]`; then `erase(5)` returns the object keyed
5, leaves bucket 1 as `[9, 1]` (all other buckets untouched) and
`size() = 3`. -/
theorem C9_concrete_scenario :
    bucketAt tScenario 0 = [] ∧
    bucketAt tScenario 1 = [9, 5, 1] ∧
    bucketAt tScenario 2 = [2] ∧
    bucketAt tScenario 3 = [] ∧
    size tScenario = 4 ∧
    (iterPath specMod4 tScenario (size tScenario) (beginIter specMod4 tScenario)).1
      = [9, 5, 1, 2] ∧
    (erase specMod4 tScenario 5).1 = some 5 ∧
    bucketAt (erase specMod4 tScenario 5).2 1 = [9, 1] ∧
    (∀ j, j ≠ 1 → bucketAt (erase specMod4 tScenario 5).2 j = bucketAt tScenario j) ∧
    size (erase specMod4 tScenario 5).2 = 3 := by
  refine ⟨by decide, by decide, by decide, by decide, by decide, ?_, by decide,
    by decide, ?_, by decide⟩
  · obtain ⟨h1, h2, h3, h4, h5⟩ := beginIter_spec specMod4 tScenario (by decide)
    have hsz : size tScenario
        = (restOf tScenario (beginIter specMod4 tScenario)).length := by
      rw [h2]
      decide
    have hp := iterPath_spec specMod4 tScenario (by decide) (size tScenario)
      (beginIter specMod4 tScenario) h1 h3 hsz
    rw [hp]
    show restOf tScenario (beginIter specMod4 tScenario) = [9, 5, 1, 2]
    rw [h2]
    decide
  · intro j hj
    rcases Nat.lt_or_ge j 4 with hj4 | hj4
    · interval_cases j
      · decide
      · exact absurd rfl hj
      · decide
      · decide
    · have e1 : (erase specMod4 tScenario 5).2.buckets_.length = 4 := by decide
      have e2 : tScenario.buckets_.length = 4 := by decide
      rw [bucketAt_oob _ (by rw [e1]; exact hj4),
        bucketAt_oob _ (by rw [e2]; exact hj4)]

end IntrusiveHashTable
